import Mathlib

/-!
Shallow embedding of `flaticon_dataset_gen.py` (class `FlaticonDatasets`):
an incremental scan-and-annotate pipeline over a SQLite table
`flaticon_images` plus a singleton `processing_count` cursor row.

Python strings are modelled as `String` (or `List Char` where character-level
reasoning is needed), SQL rows as structures, tables as lists of rows,
timestamps as `Nat`, and the external vision model (`litellm.completion`
wrapped by `_process_image`) as an opaque function `String → Option String`
returning the caption text or `none` on any failure (exception or missing
content), matching the `try/except` in `_process_image`.
-/

/-- One row of the `flaticon_images` table (see `_init_database`). -/
structure ImageRecord where
  id : Nat
  collection : String
  type : String
  file : String
  filename : String
  image_path : String
  model : Option String
  text : Option String
  skipped : Bool
  created_when : Nat
  scanned_when : Nat
  updated_when : Option Nat
deriving DecidableEq

/-- The singleton row of the `processing_count` table (id = 0). -/
structure ProcessingCount where
  image_path : Option String
  updated_when : Option Nat
deriving DecidableEq

/-- Result of `_parse_image_path`: the metadata dict it returns. -/
structure ImageMeta where
  collection : List Char
  type : List Char
  file : List Char
  filename : List Char
deriving DecidableEq

/-- Python `s.split(sep)` for a one-character separator: splits at every
occurrence, keeping empty segments; `"".split(sep) = [""]`. This is exactly
`List.splitOn`. -/
def pySplit (sep : Char) (s : List Char) : List (List Char) :=
  s.splitOn sep

/-- Python `filename.rsplit(sep, 1)[0]` for a one-character separator:
everything before the last occurrence of `sep`, or the whole string when
`sep` does not occur. Expressed through `pySplit`. -/
def pyRsplitHead (sep : Char) (s : List Char) : List Char :=
  let parts := pySplit sep s
  if parts.length ≤ 1 then s else List.intercalate [sep] parts.dropLast

/-- `_parse_image_path`: split on a slash and take the segments at Python
indices -3, -2, -1 as collection, type and filename; `file` is the filename
with the last extension stripped (`rsplit('.', 1)[0]`). With fewer than
three segments the Python negative indexing raises `IndexError`, modelled
as `none`. -/
def parse_image_path (p : List Char) : Option ImageMeta :=
  let parts := pySplit '/' p
  if h : 3 ≤ parts.length then
    let filename := parts.get ⟨parts.length - 1, by omega⟩
    some { collection := parts.get ⟨parts.length - 3, by omega⟩
           type := parts.get ⟨parts.length - 2, by omega⟩
           file := pyRsplitHead '.' filename
           filename := filename }
  else none

/-! ### Lemmas about `pySplit` and `pyRsplitHead` -/

theorem pySplit_ne_nil (sep : Char) (l : List Char) : pySplit sep l ≠ [] :=
  List.splitOnP_ne_nil _ l

theorem pySplit_of_not_mem {sep : Char} {l : List Char} (h : sep ∉ l) :
    pySplit sep l = [l] := by
  refine List.splitOnP_eq_single _ _ ?_
  intro x hx hbeq
  rw [beq_iff_eq] at hbeq
  subst hbeq
  exact h hx

theorem intercalate_pySplit (sep : Char) (l : List Char) :
    List.intercalate [sep] (pySplit sep l) = l := by
  unfold pySplit
  apply List.intercalate_splitOn

theorem two_le_length_pySplit_of_mem {sep : Char} {l : List Char} (h : sep ∈ l) :
    2 ≤ (pySplit sep l).length := by
  induction l with
  | nil => simp at h
  | cons c rest ih =>
    simp only [pySplit, List.splitOn] at ih ⊢
    rw [List.splitOnP_cons]
    by_cases hc : (c == sep) = true
    · rw [if_pos hc]
      have hne := List.splitOnP_ne_nil (· == sep) rest
      have hlen : 1 ≤ (rest.splitOnP (· == sep)).length := List.length_pos.mpr hne
      simp only [List.length_cons]
      omega
    · rw [if_neg hc]
      have hm : sep ∈ rest := by
        rcases List.mem_cons.mp h with h1 | h2
        · exact absurd (by simp [h1]) hc
        · exact h2
      have h2 := ih hm
      cases hp : rest.splitOnP (· == sep) with
      | nil => exact absurd hp (List.splitOnP_ne_nil _ rest)
      | cons v vs =>
        rw [hp] at h2
        simpa using h2

theorem not_mem_getLast?_pySplit (sep : Char) (l : List Char) (w : List Char)
    (h : (pySplit sep l).getLast? = some w) : sep ∉ w := by
  induction l generalizing w with
  | nil =>
    simp only [pySplit, List.splitOn, List.splitOnP_nil] at h
    simp only [List.getLast?_singleton, Option.some.injEq] at h
    simp [← h]
  | cons c rest ih =>
    simp only [pySplit, List.splitOn] at h ih
    rw [List.splitOnP_cons] at h
    by_cases hc : (c == sep) = true
    · rw [if_pos hc] at h
      cases hp : rest.splitOnP (· == sep) with
      | nil => exact absurd hp (List.splitOnP_ne_nil _ rest)
      | cons v vs =>
        rw [hp, List.getLast?_cons_cons] at h
        exact ih w (by rw [hp]; exact h)
    · rw [if_neg hc] at h
      cases hp : rest.splitOnP (· == sep) with
      | nil => exact absurd hp (List.splitOnP_ne_nil _ rest)
      | cons v vs =>
        rw [hp, List.modifyHead_cons] at h
        cases vs with
        | nil =>
          simp only [List.getLast?_singleton, Option.some.injEq] at h
          subst h
          have hv : sep ∉ v := ih v (by rw [hp]; simp)
          simp only [List.mem_cons]
          rintro (h1 | h2)
          · exact hc (by simp [h1])
          · exact hv h2
        | cons v2 vs2 =>
          rw [List.getLast?_cons_cons] at h
          exact ih w (by rw [hp, List.getLast?_cons_cons]; exact h)

theorem intercalate_cons₂ (s a b : List Char) (t : List (List Char)) :
    List.intercalate s (a :: b :: t) = a ++ s ++ List.intercalate s (b :: t) := by
  simp [List.intercalate, List.intersperse_cons_cons, List.append_assoc]

theorem intercalate_snoc (s w : List Char) (ws : List (List Char)) (h : ws ≠ []) :
    List.intercalate s (ws ++ [w]) = List.intercalate s ws ++ s ++ w := by
  induction ws with
  | nil => exact absurd rfl h
  | cons a t ih =>
    cases t with
    | nil => simp [List.intercalate, List.intersperse]
    | cons b t2 =>
      have hih := ih (by simp)
      calc List.intercalate s ((a :: b :: t2) ++ [w])
          = List.intercalate s (a :: b :: (t2 ++ [w])) := by simp
        _ = a ++ s ++ List.intercalate s ((b :: t2) ++ [w]) := by
              rw [intercalate_cons₂]; simp
        _ = a ++ s ++ (List.intercalate s (b :: t2) ++ s ++ w) := by rw [hih]
        _ = List.intercalate s (a :: b :: t2) ++ s ++ w := by
              rw [intercalate_cons₂]; simp [List.append_assoc]

/-- When the separator does not occur, `pyRsplitHead` returns the input. -/
theorem pyRsplitHead_of_not_mem {sep : Char} {s : List Char} (h : sep ∉ s) :
    pyRsplitHead sep s = s := by
  simp [pyRsplitHead, pySplit_of_not_mem h]

/-- When the separator occurs, the input decomposes as
`pyRsplitHead sep s ++ sep :: ext` where `ext` is free of the separator:
stripping the final extension really removes exactly the last
separator-terminated suffix. -/
theorem pyRsplitHead_of_mem {sep : Char} {s : List Char} (h : sep ∈ s) :
    ∃ ext, sep ∉ ext ∧ s = pyRsplitHead sep s ++ sep :: ext := by
  have h2 : 2 ≤ (pySplit sep s).length := two_le_length_pySplit_of_mem h
  have hne : pySplit sep s ≠ [] := pySplit_ne_nil sep s
  refine ⟨(pySplit sep s).getLast hne, ?_, ?_⟩
  · exact not_mem_getLast?_pySplit sep s _ (List.getLast?_eq_getLast _ hne)
  · have hsnoc : (pySplit sep s).dropLast ++ [(pySplit sep s).getLast hne] =
        pySplit sep s := List.dropLast_append_getLast hne
    have hdne : (pySplit sep s).dropLast ≠ [] := by
      intro hd
      have := congrArg List.length hsnoc
      simp [hd] at this
      omega
    have key : List.intercalate [sep] (pySplit sep s) =
        List.intercalate [sep] (pySplit sep s).dropLast ++ [sep] ++
          (pySplit sep s).getLast hne := by
      conv_lhs => rw [← hsnoc]
      exact intercalate_snoc _ _ _ hdne
    have hfb : pyRsplitHead sep s = List.intercalate [sep] (pySplit sep s).dropLast := by
      simp only [pyRsplitHead, pySplit] at *
      rw [if_neg (by omega)]
    rw [hfb]
    have hshape : List.intercalate [sep] (pySplit sep s).dropLast ++
          sep :: (pySplit sep s).getLast hne =
        List.intercalate [sep] (pySplit sep s).dropLast ++ [sep] ++
          (pySplit sep s).getLast hne := by
      simp [List.append_assoc]
    rw [hshape, ← key, intercalate_pySplit]

/-! ### `_get_image_files`: filesystem enumeration -/

/-- One file yielded by `os.walk`: the directory it sits in and its name. -/
structure FsFile where
  root : String
  name : String
deriving DecidableEq

/-- The `IMAGE_EXTENSIONS` tuple of the class. -/
def IMAGE_EXTENSIONS : List String :=
  [".png", ".jpg", ".jpeg", ".gif", ".bmp", ".svg"]

/-- Python `file.lower()`, character by character. -/
def pyLower (s : String) : List Char :=
  s.toList.map Char.toLower

/-- Python `file.lower().endswith(IMAGE_EXTENSIONS)`. -/
def hasImageExtension (name : String) : Bool :=
  IMAGE_EXTENSIONS.any (fun ext => ext.toList.isSuffixOf (pyLower name))

/-- `os.path.join(root, file)` for a root with no trailing separator. -/
def joinPath (root name : String) : String :=
  root ++ "/" ++ name

/-- `_get_image_files`: keep the walked files with a recognized image
extension, join each with its directory, and sort the paths
(`sorted`, lexicographic on the string). -/
def get_image_files (walk : List FsFile) : List String :=
  ((walk.filter (fun f => hasImageExtension f.name)).map
    (fun f => joinPath f.root f.name)).mergeSort (fun a b => decide (a ≤ b))

/-! ### `_scan_and_update_database` -/

/-- String-level wrapper of `_parse_image_path`. -/
def parse_image_path_str (p : String) : Option ImageMeta :=
  parse_image_path p.toList

/-- The next AUTOINCREMENT surrogate id: larger than every id in use. -/
def nextId (store : List ImageRecord) : Nat :=
  (store.map (fun r => r.id)).foldr max 0 + 1

/-- The row INSERTed by the scan for a newly discovered path:
`created_when = scanned_when = now`, annotation fields NULL, `skipped`
defaulting to 0. -/
def mkScannedRecord (rid : Nat) (m : ImageMeta) (p : String) (now : Nat) :
    ImageRecord :=
  { id := rid
    collection := m.collection.asString
    type := m.type.asString
    file := m.file.asString
    filename := m.filename.asString
    image_path := p
    model := none
    text := none
    skipped := false
    created_when := now
    scanned_when := now
    updated_when := none }

/-- One iteration of the scan loop: parse the path (an `IndexError` aborts
the scan, modelled as `none`), then either refresh `scanned_when` of the
matching row or INSERT a fresh row. -/
def scanStep (now : Nat) (store : List ImageRecord) (p : String) :
    Option (List ImageRecord) :=
  match parse_image_path_str p with
  | none => none
  | some m =>
    if store.any (fun r => r.image_path == p) then
      some (store.map (fun r =>
        if r.image_path == p then { r with scanned_when := now } else r))
    else
      some (store ++ [mkScannedRecord (nextId store) m p now])

/-- `_scan_and_update_database` over an already-enumerated file list:
`current_time` is captured once (`now`) and the files are folded through
`scanStep`. -/
def scan_and_update_database (now : Nat) :
    List String → List ImageRecord → Option (List ImageRecord)
  | [], store => some store
  | p :: ps, store =>
    match scanStep now store p with
    | none => none
    | some store1 => scan_and_update_database now ps store1

/-- A record with its `scanned_when` field blanked, used to state that a
rescan changes nothing but `scanned_when`. -/
def eraseScanned (r : ImageRecord) : ImageRecord :=
  { r with scanned_when := 0 }

/-! ### `_process_unprocessed_records` (the Annotator) -/

/-- The pending SELECT:
`WHERE updated_when IS NULL AND skipped = 0 ORDER BY id`. -/
def selectPending (store : List ImageRecord) : List ImageRecord :=
  (store.filter (fun r => r.updated_when.isNone && !r.skipped)).mergeSort
    (fun a b => decide (a.id ≤ b.id))

/-- Python truthiness of the value returned by `_process_image`:
`None` and the empty string are falsy. -/
def truthy : Option String → Bool
  | none => false
  | some s => !(s == "")

/-- The UPDATE that persists a caption:
`SET model = ?, text = ?, updated_when = ? WHERE id = ?`, committed as one
write. -/
def commitCaption (model txt : String) (t : Nat) (store : List ImageRecord)
    (rid : Nat) : List ImageRecord :=
  store.map (fun r =>
    if r.id == rid then
      { r with model := some model, text := some txt, updated_when := some t }
    else r)

/-- `_save_last_processed`: overwrite the singleton cursor row with the
just-annotated path and a fresh timestamp. -/
def save_last_processed (path : String) (t : Nat) : ProcessingCount :=
  { image_path := some path, updated_when := some t }

/-- The console output of the run, as structured events rather than raw
strings. -/
inductive LogEntry where
  | foundRecords (n : Nat)
  | processing (id : Nat) (path : String)
  | skippedError (id : Nat)
  | progressSoFar (n : Nat)
  | processingComplete (n : Nat)
deriving DecidableEq

/-- Mutable state of one Annotator run: the table, the cursor row, the
`processed_count` counter, a clock (each `datetime.now()` call reads and
advances it), and the log. -/
structure RunState where
  store : List ImageRecord
  count : ProcessingCount
  processedCount : Nat
  clock : Nat
  log : List LogEntry
deriving DecidableEq

/-- The parts of a `RunState` that are not console output. -/
def RunState.core (s : RunState) :
    List ImageRecord × ProcessingCount × Nat × Nat :=
  (s.store, s.count, s.processedCount, s.clock)

/-- One iteration of the annotation loop for a fetched `(id, image_path)`
pair: print, call the provider; on truthy text commit the caption UPDATE,
then update the cursor, then maybe print progress; otherwise print the
skip diagnostic and leave every row unchanged. -/
def annotateStep (provider : String → Option String) (model : String)
    (batchSize : Nat) (s : RunState) (rid : Nat) (path : String) : RunState :=
  let s0 := { s with log := s.log ++ [LogEntry.processing rid path] }
  match provider path with
  | some txt =>
    if txt = "" then
      { s0 with log := s0.log ++ [LogEntry.skippedError rid] }
    else
      let store1 := commitCaption model txt s0.clock s0.store rid
      let count1 := save_last_processed path (s0.clock + 1)
      let n := s0.processedCount + 1
      let plog := if n % batchSize = 0 then [LogEntry.progressSoFar n] else []
      { store := store1
        count := count1
        processedCount := n
        clock := s0.clock + 2
        log := s0.log ++ plog }
  | none => { s0 with log := s0.log ++ [LogEntry.skippedError rid] }

/-- The `for record_id, image_path in unprocessed` loop: the fetched
snapshot is iterated left to right, threading the run state. -/
def annotateFold (provider : String → Option String) (model : String)
    (batchSize : Nat) (sel : List ImageRecord) (s : RunState) : RunState :=
  sel.foldl (fun s r => annotateStep provider model batchSize s r.id r.image_path) s

/-- `_process_unprocessed_records`: fetch the pending snapshot once, then
fold the loop body over it. -/
def process_unprocessed_records (provider : String → Option String)
    (model : String) (batchSize : Nat) (store : List ImageRecord)
    (pc : ProcessingCount) (clock : Nat) : RunState :=
  let selected := selectPending store
  let s0 : RunState :=
    { store := store
      count := pc
      processedCount := 0
      clock := clock
      log := [LogEntry.foundRecords selected.length] }
  let s1 := annotateFold provider model batchSize selected s0
  { s1 with log := s1.log ++ [LogEntry.processingComplete s1.processedCount] }

/-- The ids named by `Processing record ...` lines, in print order: the
order in which the loop actually visits records. -/
def processedIdsOf (log : List LogEntry) : List Nat :=
  log.filterMap (fun e =>
    match e with
    | LogEntry.processing i _ => some i
    | _ => none)

/-! ### `_init_database` and `Generate` -/

/-- The SQLite file as seen by `_init_database`: which tables exist, the
image rows, and the optional singleton cursor row. -/
structure DBState where
  imagesTableExists : Bool
  images : List ImageRecord
  countTableExists : Bool
  countRow : Option ProcessingCount
deriving DecidableEq

/-- `CREATE TABLE IF NOT EXISTS flaticon_images ...`. -/
def createImagesTable (db : DBState) : DBState :=
  if db.imagesTableExists then db
  else { db with imagesTableExists := true, images := [] }

/-- `ALTER TABLE flaticon_images ADD COLUMN skipped INTEGER DEFAULT 0`,
with the `OperationalError` for an existing column swallowed. SQLite adds
a column without rewriting stored rows, and on this schema the column
already exists, so no row changes. -/
def addSkippedColumn (db : DBState) : DBState :=
  db

/-- `CREATE TABLE IF NOT EXISTS processing_count ...`. -/
def createCountTable (db : DBState) : DBState :=
  if db.countTableExists then db
  else { db with countTableExists := true, countRow := none }

/-- `INSERT OR IGNORE INTO processing_count (id, image_path, updated_when)
VALUES (0, NULL, NULL)`. -/
def insertCountIfAbsent (db : DBState) : DBState :=
  match db.countRow with
  | some _ => db
  | none => { db with countRow := some { image_path := none, updated_when := none } }

/-- `_init_database`, run on construction of `FlaticonDatasets`. -/
def init_database (db : DBState) : DBState :=
  insertCountIfAbsent (createCountTable (addSkippedColumn (createImagesTable db)))

/-- `Generate`: resolve the batch-size default, scan, then annotate.
A scan-time `IndexError` propagates, modelled as `none`. -/
def Generate (provider : String → Option String) (model : String)
    (batchSize : Option Nat) (files : List String) (store : List ImageRecord)
    (pc : ProcessingCount) (scanTime clock : Nat) : Option RunState :=
  let b := batchSize.getD 10
  match scan_and_update_database scanTime files store with
  | none => none
  | some store1 => some (process_unprocessed_records provider model b store1 pc clock)

/-! ### Helper lemmas: pending selection -/

theorem mem_selectPending_iff (store : List ImageRecord) (r : ImageRecord) :
    r ∈ selectPending store ↔
      r ∈ store ∧ r.updated_when = none ∧ r.skipped = false := by
  unfold selectPending
  rw [List.mem_mergeSort, List.mem_filter]
  simp [Option.isNone_iff_eq_none, Bool.not_eq_true', and_assoc]

/-- C1: the pending SELECT picks exactly the records with NULL
`updated_when` and unset `skipped`, and never anything else. -/
theorem annotator_selects_exactly_pending (store : List ImageRecord)
    (r : ImageRecord) :
    r ∈ selectPending store ↔
      r ∈ store ∧ r.updated_when = none ∧ r.skipped = false :=
  mem_selectPending_iff store r

/-- C6: with at least three slash-separated segments the parser returns the
last three segments as collection, type and filename, with `file` equal to
`filename` with its final dot-extension stripped; with fewer than three
segments it fails. -/
theorem parse_image_path_spec (p : List Char) :
    (3 ≤ (pySplit '/' p).length →
      ∃ m, parse_image_path p = some m
        ∧ (∃ pre, pySplit '/' p = pre ++ [m.collection, m.type, m.filename])
        ∧ m.file = pyRsplitHead '.' m.filename
        ∧ ('.' ∉ m.filename → m.file = m.filename)
        ∧ ('.' ∈ m.filename →
            ∃ ext, '.' ∉ ext ∧ m.filename = m.file ++ '.' :: ext))
    ∧ ((pySplit '/' p).length < 3 → parse_image_path p = none) := by
  constructor
  · intro h3
    refine ⟨{ collection := (pySplit '/' p).get ⟨(pySplit '/' p).length - 3, by omega⟩
              type := (pySplit '/' p).get ⟨(pySplit '/' p).length - 2, by omega⟩
              file := pyRsplitHead '.'
                ((pySplit '/' p).get ⟨(pySplit '/' p).length - 1, by omega⟩)
              filename := (pySplit '/' p).get ⟨(pySplit '/' p).length - 1, by omega⟩ },
            ?_, ?_, rfl, ?_, ?_⟩
    · simp only [parse_image_path]
      rw [dif_pos h3]
    · refine ⟨(pySplit '/' p).take ((pySplit '/' p).length - 3), ?_⟩
      conv_lhs => rw [← List.take_append_drop ((pySplit '/' p).length - 3) (pySplit '/' p)]
      congr 1
      rw [List.drop_eq_getElem_cons (by omega),
          show (pySplit '/' p).length - 3 + 1 = (pySplit '/' p).length - 2 by omega,
          List.drop_eq_getElem_cons (by omega),
          show (pySplit '/' p).length - 2 + 1 = (pySplit '/' p).length - 1 by omega,
          List.drop_eq_getElem_cons (by omega),
          show (pySplit '/' p).length - 1 + 1 = (pySplit '/' p).length by omega,
          List.drop_length]
      simp
    · intro hnd
      exact (pyRsplitHead_of_not_mem hnd)
    · intro hd
      obtain ⟨ext, hext, heq⟩ := pyRsplitHead_of_mem hd
      exact ⟨ext, hext, heq⟩
  · intro hlt
    simp only [parse_image_path]
    rw [dif_neg (by omega)]

/-! ### Helper lemmas: sorting strings -/

theorem mergeSort_str_sorted (l : List String) :
    List.Pairwise (fun a b : String => a ≤ b)
      (l.mergeSort (fun a b => decide (a ≤ b))) := by
  have htrans : ∀ a b c : String,
      (decide (a ≤ b)) = true → (decide (b ≤ c)) = true →
        (decide (a ≤ c)) = true := by
    intro a b c h1 h2
    simp only [decide_eq_true_eq] at h1 h2 ⊢
    exact le_trans h1 h2
  have htotal : ∀ a b : String,
      ((decide (a ≤ b)) || (decide (b ≤ a))) = true := by
    intro a b
    simp only [Bool.or_eq_true, decide_eq_true_eq]
    exact le_total a b
  have h := List.sorted_mergeSort htrans htotal l
  exact h.imp (fun hab => of_decide_eq_true hab)

/-- C7: the enumeration returns exactly the walked files with a recognized
image extension (case-insensitive suffix check), in lexicographically
sorted order, and the result does not depend on the order `os.walk`
yielded the files. -/
theorem scanner_file_enumeration (walk1 walk2 : List FsFile)
    (hperm : walk1.Perm walk2) :
    (∀ p, p ∈ get_image_files walk1 ↔
        ∃ f, f ∈ walk1 ∧ hasImageExtension f.name = true
          ∧ p = joinPath f.root f.name)
    ∧ List.Pairwise (fun a b : String => a ≤ b) (get_image_files walk1)
    ∧ get_image_files walk1 = get_image_files walk2 := by
  refine ⟨?_, mergeSort_str_sorted _, ?_⟩
  · intro p
    unfold get_image_files
    rw [List.mem_mergeSort, List.mem_map]
    constructor
    · rintro ⟨f, hf, rfl⟩
      rw [List.mem_filter] at hf
      exact ⟨f, hf.1, hf.2, rfl⟩
    · rintro ⟨f, hf1, hf2, rfl⟩
      exact ⟨f, List.mem_filter.mpr ⟨hf1, hf2⟩, rfl⟩
  · refine List.eq_of_perm_of_sorted ?_ (mergeSort_str_sorted _)
      (mergeSort_str_sorted _)
    exact ((List.mergeSort_perm _ _).trans
      ((hperm.filter _).map _)).trans (List.mergeSort_perm _ _).symm

/-- C10: constructing the pipeline against a database whose tables already
exist and whose cursor row is present changes no image row and leaves the
cursor row exactly as it was. -/
theorem init_database_preserves_existing (db : DBState) (c : ProcessingCount)
    (himg : db.imagesTableExists = true) (hct : db.countTableExists = true)
    (hcur : db.countRow = some c) :
    (init_database db).images = db.images
    ∧ (init_database db).countRow = some c := by
  simp [init_database, insertCountIfAbsent, createCountTable,
    addSkippedColumn, createImagesTable, himg, hct, hcur]

/-! ### Helper lemmas: the annotation step -/

theorem annotateStep_of_not_truthy (provider : String → Option String)
    (model : String) (b : Nat) (s : RunState) (rid : Nat) (path : String)
    (h : truthy (provider path) = false) :
    annotateStep provider model b s rid path =
      { s with log := s.log ++
          [LogEntry.processing rid path, LogEntry.skippedError rid] } := by
  unfold annotateStep
  cases hp : provider path with
  | none => simp
  | some txt =>
    rw [hp] at h
    unfold truthy at h
    simp at h
    simp [h]

theorem annotateStep_of_truthy (provider : String → Option String)
    (model : String) (b : Nat) (s : RunState) (rid : Nat) (path txt : String)
    (hp : provider path = some txt) (hne : txt ≠ "") :
    annotateStep provider model b s rid path =
      { store := commitCaption model txt s.clock s.store rid
        count := save_last_processed path (s.clock + 1)
        processedCount := s.processedCount + 1
        clock := s.clock + 2
        log := (s.log ++ [LogEntry.processing rid path]) ++
          (if (s.processedCount + 1) % b = 0
            then [LogEntry.progressSoFar (s.processedCount + 1)] else []) } := by
  unfold annotateStep
  rw [hp]
  simp [hne]

theorem truthy_iff (o : Option String) :
    truthy o = true ↔ ∃ txt, o = some txt ∧ txt ≠ "" := by
  cases o with
  | none => simp [truthy]
  | some s =>
    simp only [truthy, Bool.not_eq_eq_eq_not, Bool.not_true, beq_eq_false_iff_ne]
    constructor
    · intro h; exact ⟨s, rfl, h⟩
    · rintro ⟨txt, htxt, hne⟩
      cases htxt
      exact hne

theorem commitCaption_mem_of_ne (model txt : String) (t : Nat)
    (store : List ImageRecord) (rid : Nat) (r : ImageRecord)
    (hr : r ∈ store) (hne : r.id ≠ rid) :
    r ∈ commitCaption model txt t store rid := by
  unfold commitCaption
  have hfr : (fun x : ImageRecord =>
      if x.id == rid then
        { x with model := some model, text := some txt, updated_when := some t }
      else x) r = r := by
    simp [hne]
  rw [← hfr]
  exact List.mem_map_of_mem _ hr

theorem commitCaption_mem_self (model txt : String) (t : Nat)
    (store : List ImageRecord) (rid : Nat) (r : ImageRecord)
    (hr : r ∈ store) (hid : r.id = rid) :
    { r with model := some model, text := some txt, updated_when := some t }
      ∈ commitCaption model txt t store rid := by
  unfold commitCaption
  have hfr : (fun x : ImageRecord =>
      if x.id == rid then
        { x with model := some model, text := some txt, updated_when := some t }
      else x) r =
      { r with model := some model, text := some txt, updated_when := some t } := by
    simp [hid]
  rw [← hfr]
  exact List.mem_map_of_mem _ hr

theorem annotateStep_mem_of_id_ne (provider : String → Option String)
    (model : String) (b : Nat) (s : RunState) (rid : Nat) (path : String)
    (r : ImageRecord) (hr : r ∈ s.store) (hne : r.id ≠ rid) :
    r ∈ (annotateStep provider model b s rid path).store := by
  unfold annotateStep
  cases hp : provider path with
  | none => simpa using hr
  | some txt =>
    by_cases ht : txt = ""
    · simpa [ht] using hr
    · simp only [ht, if_neg (by simp [ht] : ¬ txt = "")]
      simpa using commitCaption_mem_of_ne model txt s.clock s.store rid r hr hne

theorem annotateFold_nil (provider : String → Option String) (model : String)
    (b : Nat) (s : RunState) : annotateFold provider model b [] s = s := rfl

theorem annotateFold_cons (provider : String → Option String) (model : String)
    (b : Nat) (q : ImageRecord) (t : List ImageRecord) (s : RunState) :
    annotateFold provider model b (q :: t) s =
      annotateFold provider model b t
        (annotateStep provider model b s q.id q.image_path) := by
  simp [annotateFold]

theorem annotateFold_mem_of_id_notin (provider : String → Option String)
    (model : String) (b : Nat) (sel : List ImageRecord) :
    ∀ (s : RunState) (r : ImageRecord), r ∈ s.store →
      (∀ q ∈ sel, q.id ≠ r.id) →
      r ∈ (annotateFold provider model b sel s).store := by
  induction sel with
  | nil =>
    intro s r hr _
    simpa [annotateFold_nil] using hr
  | cons q t ih =>
    intro s r hr hq
    rw [annotateFold_cons]
    refine ih _ r ?_ (fun q2 h2 => hq q2 (by simp [h2]))
    exact annotateStep_mem_of_id_ne provider model b s q.id q.image_path r hr
      (fun h => hq q (by simp) h.symm)

theorem annotateFold_mem_of_fail (provider : String → Option String)
    (model : String) (b : Nat) (sel : List ImageRecord) :
    ∀ (s : RunState) (r : ImageRecord), r ∈ s.store →
      (∀ q ∈ sel, q.id = r.id → truthy (provider q.image_path) = false) →
      r ∈ (annotateFold provider model b sel s).store := by
  induction sel with
  | nil =>
    intro s r hr _
    simpa [annotateFold_nil] using hr
  | cons q t ih =>
    intro s r hr hq
    rw [annotateFold_cons]
    refine ih _ r ?_ (fun q2 h2 => hq q2 (by simp [h2]))
    by_cases hid : q.id = r.id
    · have hf := hq q (by simp) hid
      rw [annotateStep_of_not_truthy provider model b s q.id q.image_path hf]
      simpa using hr
    · exact annotateStep_mem_of_id_ne provider model b s q.id q.image_path r hr
        (fun h => hid h.symm)

theorem annotateStep_log_mono (provider : String → Option String)
    (model : String) (b : Nat) (s : RunState) (rid : Nat) (path : String)
    (e : LogEntry) (he : e ∈ s.log) :
    e ∈ (annotateStep provider model b s rid path).log := by
  unfold annotateStep
  cases hp : provider path with
  | none => simp [he]
  | some txt => by_cases ht : txt = "" <;> simp [ht, he]

theorem annotateFold_log_mono (provider : String → Option String)
    (model : String) (b : Nat) (sel : List ImageRecord) :
    ∀ (s : RunState) (e : LogEntry), e ∈ s.log →
      e ∈ (annotateFold provider model b sel s).log := by
  induction sel with
  | nil =>
    intro s e he
    simpa [annotateFold_nil] using he
  | cons q t ih =>
    intro s e he
    rw [annotateFold_cons]
    exact ih _ e (annotateStep_log_mono provider model b s q.id q.image_path e he)

theorem annotateFold_diag (provider : String → Option String) (model : String)
    (b : Nat) (sel : List ImageRecord) :
    ∀ (s : RunState) (r : ImageRecord), r ∈ sel →
      truthy (provider r.image_path) = false →
      LogEntry.skippedError r.id ∈ (annotateFold provider model b sel s).log := by
  induction sel with
  | nil => simp
  | cons q t ih =>
    intro s r hmem hf
    rw [annotateFold_cons]
    rcases List.mem_cons.mp hmem with heq | hmem2
    · subst heq
      apply annotateFold_log_mono
      rw [annotateStep_of_not_truthy provider model b s r.id r.image_path hf]
      simp
    · exact ih _ r hmem2 hf

theorem annotateFold_success (provider : String → Option String)
    (model : String) (b : Nat) (sel : List ImageRecord) :
    ∀ (s : RunState) (r : ImageRecord), r ∈ sel → r ∈ s.store →
      ((sel.map (fun x => x.id)).Nodup) →
      truthy (provider r.image_path) = true →
      ∃ t txt, provider r.image_path = some txt ∧ txt ≠ "" ∧
        { r with model := some model, text := some txt, updated_when := some t }
          ∈ (annotateFold provider model b sel s).store := by
  induction sel with
  | nil => simp
  | cons q tail ih =>
    intro s r hmem hstore hnd htr
    have hnd0 := hnd
    simp only [List.map_cons, List.nodup_cons, List.mem_map] at hnd0
    rcases List.mem_cons.mp hmem with heq | hmem2
    · subst heq
      obtain ⟨txt, hp, hne⟩ := (truthy_iff (provider r.image_path)).mp htr
      refine ⟨s.clock, txt, hp, hne, ?_⟩
      rw [annotateFold_cons]
      apply annotateFold_mem_of_id_notin provider model b tail
      · rw [annotateStep_of_truthy provider model b s r.id r.image_path txt hp hne]
        exact commitCaption_mem_self model txt s.clock s.store r.id r hstore rfl
      · intro q2 h2 hq2
        exact hnd0.1 ⟨q2, h2, hq2⟩
    · rw [annotateFold_cons]
      have hqr : q.id ≠ r.id := by
        intro h
        exact hnd0.1 ⟨r, hmem2, h.symm⟩
      refine ih _ r hmem2 ?_ hnd0.2 htr
      exact annotateStep_mem_of_id_ne provider model b s q.id q.image_path r
        hstore (fun h => hqr h.symm)

/-! ### Helper lemmas: order of the pending selection -/

theorem selectPending_sorted_le (store : List ImageRecord) :
    List.Pairwise (fun a b : ImageRecord => a.id ≤ b.id)
      (selectPending store) := by
  have htrans : ∀ a b c : ImageRecord,
      (decide (a.id ≤ b.id)) = true → (decide (b.id ≤ c.id)) = true →
        (decide (a.id ≤ c.id)) = true := by
    intro a b c h1 h2
    simp only [decide_eq_true_eq] at h1 h2 ⊢
    omega
  have htotal : ∀ a b : ImageRecord,
      ((decide (a.id ≤ b.id)) || (decide (b.id ≤ a.id))) = true := by
    intro a b
    simp only [Bool.or_eq_true, decide_eq_true_eq]
    omega
  have h := List.sorted_mergeSort htrans htotal
    (store.filter (fun r => r.updated_when.isNone && !r.skipped))
  exact h.imp (fun hab => of_decide_eq_true hab)

theorem selectPending_ids_nodup (store : List ImageRecord)
    (h : (store.map (fun r => r.id)).Nodup) :
    ((selectPending store).map (fun r => r.id)).Nodup := by
  have hperm : List.Perm (selectPending store)
      (store.filter (fun r => r.updated_when.isNone && !r.skipped)) :=
    List.mergeSort_perm _ _
  have hsub : ((store.filter
        (fun r => r.updated_when.isNone && !r.skipped)).map
          (fun r => r.id)).Nodup :=
    List.Nodup.sublist (List.Sublist.map _ (List.filter_sublist _)) h
  exact ((hperm.map _).nodup_iff).mpr hsub

theorem selectPending_sorted_lt (store : List ImageRecord)
    (h : (store.map (fun r => r.id)).Nodup) :
    List.Pairwise (fun a b : ImageRecord => a.id < b.id)
      (selectPending store) := by
  have h1 := selectPending_sorted_le store
  have h2 : List.Pairwise (fun a b : ImageRecord => a.id ≠ b.id)
      (selectPending store) :=
    List.pairwise_map.mp (selectPending_ids_nodup store h)
  exact (h1.and h2).imp (fun hab => Nat.lt_of_le_of_ne hab.1 hab.2)

instance : IsAntisymm ImageRecord (fun a b => a.id < b.id) :=
  ⟨fun _ _ h1 h2 => absurd h2 (Nat.lt_asymm h1)⟩

theorem selectPending_eq_of_perm (s1 s2 : List ImageRecord)
    (h1 : (s1.map (fun r => r.id)).Nodup) (hp : s1.Perm s2) :
    selectPending s1 = selectPending s2 := by
  have h2 : (s2.map (fun r => r.id)).Nodup := ((hp.map _).nodup_iff).mp h1
  refine List.eq_of_perm_of_sorted ?_ (selectPending_sorted_lt s1 h1)
    (selectPending_sorted_lt s2 h2)
  unfold selectPending
  exact ((List.mergeSort_perm _ _).trans (hp.filter _)).trans
    (List.mergeSort_perm _ _).symm

/-! ### Helper lemmas: processing order and logging -/

theorem processedIdsOf_append (l1 l2 : List LogEntry) :
    processedIdsOf (l1 ++ l2) = processedIdsOf l1 ++ processedIdsOf l2 := by
  simp [processedIdsOf]

theorem annotateStep_processedIds (provider : String → Option String)
    (model : String) (b : Nat) (s : RunState) (rid : Nat) (path : String) :
    processedIdsOf (annotateStep provider model b s rid path).log =
      processedIdsOf s.log ++ [rid] := by
  unfold annotateStep
  cases hp : provider path with
  | none => simp [processedIdsOf_append, processedIdsOf]
  | some txt =>
    by_cases ht : txt = ""
    · simp [ht, processedIdsOf_append, processedIdsOf]
    · by_cases hb : (s.processedCount + 1) % b = 0 <;>
        simp [ht, hb, processedIdsOf_append, processedIdsOf]

theorem annotateFold_processedIds (provider : String → Option String)
    (model : String) (b : Nat) (sel : List ImageRecord) :
    ∀ s : RunState,
      processedIdsOf (annotateFold provider model b sel s).log =
        processedIdsOf s.log ++ sel.map (fun r => r.id) := by
  induction sel with
  | nil =>
    intro s
    simp [annotateFold_nil]
  | cons q t ih =>
    intro s
    rw [annotateFold_cons, ih, annotateStep_processedIds]
    simp

theorem run_store_eq (provider : String → Option String) (model : String)
    (b : Nat) (store : List ImageRecord) (pc : ProcessingCount) (clock : Nat) :
    (process_unprocessed_records provider model b store pc clock).store =
      (annotateFold provider model b (selectPending store)
        { store := store
          count := pc
          processedCount := 0
          clock := clock
          log := [LogEntry.foundRecords (selectPending store).length] }).store :=
  rfl

theorem run_log_eq (provider : String → Option String) (model : String)
    (b : Nat) (store : List ImageRecord) (pc : ProcessingCount) (clock : Nat) :
    (process_unprocessed_records provider model b store pc clock).log =
      (annotateFold provider model b (selectPending store)
        { store := store
          count := pc
          processedCount := 0
          clock := clock
          log := [LogEntry.foundRecords (selectPending store).length] }).log
      ++ [LogEntry.processingComplete
            (annotateFold provider model b (selectPending store)
              { store := store
                count := pc
                processedCount := 0
                clock := clock
                log := [LogEntry.foundRecords
                  (selectPending store).length] }).processedCount] :=
  rfl

/-- C2: on success, the caption UPDATE (model, text, updated_when) is one
committed write, after which the cursor is overwritten with this record's
path; if execution stops between the two, the already-visible store state
classifies the record as terminal, so a rerun does not select it. -/
theorem caption_committed_before_cursor (provider : String → Option String)
    (model : String) (batchSize : Nat) (s : RunState) (rid : Nat)
    (path txt : String) (hp : provider path = some txt) (hne : txt ≠ "") :
    ((annotateStep provider model batchSize s rid path).store
        = commitCaption model txt s.clock s.store rid)
    ∧ ((annotateStep provider model batchSize s rid path).count
        = save_last_processed path (s.clock + 1))
    ∧ (∀ q ∈ selectPending (commitCaption model txt s.clock s.store rid),
        q.id ≠ rid) := by
  refine ⟨?_, ?_, ?_⟩
  · rw [annotateStep_of_truthy provider model batchSize s rid path txt hp hne]
  · rw [annotateStep_of_truthy provider model batchSize s rid path txt hp hne]
  · intro q hq
    rw [mem_selectPending_iff] at hq
    obtain ⟨hmem, hupd, _⟩ := hq
    unfold commitCaption at hmem
    obtain ⟨r0, hr0, hfq⟩ := List.mem_map.mp hmem
    by_cases hid : r0.id = rid
    · rw [if_pos (by simp [hid])] at hfq
      rw [← hfq] at hupd
      simp at hupd
    · rw [if_neg (by simp [hid])] at hfq
      rw [← hfq]
      exact hid

/-- C4: the Annotator visits records in strictly ascending surrogate-id
order, the order is the same for any two stores holding the same record
set, and the run's `Processing record` lines list exactly the selected ids
in that order. -/
theorem work_order_determinism (provider : String → Option String)
    (model : String) (b : Nat) (s1 s2 : List ImageRecord)
    (pc : ProcessingCount) (clock : Nat)
    (hids : (s1.map (fun r => r.id)).Nodup) (hperm : s1.Perm s2) :
    List.Pairwise (fun a b : ImageRecord => a.id < b.id) (selectPending s1)
    ∧ selectPending s1 = selectPending s2
    ∧ processedIdsOf
        (process_unprocessed_records provider model b s1 pc clock).log
        = (selectPending s1).map (fun r => r.id) := by
  refine ⟨selectPending_sorted_lt s1 hids,
    selectPending_eq_of_perm s1 s2 hids hperm, ?_⟩
  rw [run_log_eq, processedIdsOf_append, annotateFold_processedIds]
  simp [processedIdsOf]

/-! ### Helper lemmas: batch size touches only the log -/

theorem annotateStep_core_eq (provider : String → Option String)
    (model : String) (b1 b2 : Nat) (s1 s2 : RunState)
    (h : s1.core = s2.core) (rid : Nat) (path : String) :
    (annotateStep provider model b1 s1 rid path).core
      = (annotateStep provider model b2 s2 rid path).core := by
  simp only [RunState.core, Prod.mk.injEq] at h
  obtain ⟨h1, h2, h3, h4⟩ := h
  unfold annotateStep
  cases hp : provider path with
  | none => simp [RunState.core, h1, h2, h3, h4]
  | some txt =>
    by_cases ht : txt = ""
    · simp [ht, RunState.core, h1, h2, h3, h4]
    · simp [ht, RunState.core, h1, h2, h3, h4]

theorem annotateFold_core_eq (provider : String → Option String)
    (model : String) (b1 b2 : Nat) (sel : List ImageRecord) :
    ∀ s1 s2 : RunState, s1.core = s2.core →
      (annotateFold provider model b1 sel s1).core
        = (annotateFold provider model b2 sel s2).core := by
  induction sel with
  | nil =>
    intro s1 s2 h
    simpa [annotateFold_nil] using h
  | cons q t ih =>
    intro s1 s2 h
    rw [annotateFold_cons, annotateFold_cons]
    exact ih _ _ (annotateStep_core_eq provider model b1 b2 s1 s2 h q.id
      q.image_path)

/-- C8: two `Generate` runs over the same store, files and provider that
differ only in the batch-size argument end in the same store, cursor,
processed count and clock; batch size can only change the log. -/
theorem batch_size_only_logging (provider : String → Option String)
    (model : String) (files : List String) (store : List ImageRecord)
    (pc : ProcessingCount) (scanTime clock : Nat) (b1 b2 : Option Nat) :
    (Generate provider model b1 files store pc scanTime clock).map
        RunState.core
      = (Generate provider model b2 files store pc scanTime clock).map
          RunState.core := by
  unfold Generate
  cases hsc : scan_and_update_database scanTime files store with
  | none => simp
  | some store1 =>
    simp only [Option.map_some']
    apply congrArg
    unfold process_unprocessed_records
    exact annotateFold_core_eq provider model (b1.getD 10) (b2.getD 10)
      (selectPending store1) _ _ rfl

/-- C3: a record whose provider call fails (error or empty text) is left
entirely unchanged in the store and, when it was pending, gets a skip
diagnostic in the log; meanwhile every pending record whose provider call
succeeds is still annotated in the same run, so one failure never blocks
later records. -/
theorem failure_isolation (provider : String → Option String) (model : String)
    (b : Nat) (store : List ImageRecord) (pc : ProcessingCount) (clock : Nat)
    (hids : (store.map (fun r => r.id)).Nodup)
    (r : ImageRecord) (hr : r ∈ store) :
    (truthy (provider r.image_path) = false →
        r ∈ (process_unprocessed_records provider model b store pc clock).store
        ∧ (r.updated_when = none → r.skipped = false →
            LogEntry.skippedError r.id
              ∈ (process_unprocessed_records provider model b store pc
                  clock).log))
    ∧ (truthy (provider r.image_path) = true →
        r.updated_when = none → r.skipped = false →
        ∃ t txt, provider r.image_path = some txt ∧ txt ≠ "" ∧
          { r with
              model := some model
              text := some txt
              updated_when := some t }
            ∈ (process_unprocessed_records provider model b store pc
                clock).store) := by
  constructor
  · intro hfail
    constructor
    · rw [run_store_eq]
      apply annotateFold_mem_of_fail provider model b (selectPending store)
      · exact hr
      · intro q hq hid
        have hqs := (mem_selectPending_iff store q).mp hq
        have hqr : q = r :=
          List.inj_on_of_nodup_map hids hqs.1 hr hid
        rw [hqr]
        exact hfail
    · intro hupd hskip
      rw [run_log_eq]
      apply List.mem_append_left
      apply annotateFold_diag provider model b (selectPending store)
      · exact (mem_selectPending_iff store r).mpr ⟨hr, hupd, hskip⟩
      · exact hfail
  · intro htr hupd hskip
    have hsel : r ∈ selectPending store :=
      (mem_selectPending_iff store r).mpr ⟨hr, hupd, hskip⟩
    have hnd := selectPending_ids_nodup store hids
    rw [run_store_eq]
    exact annotateFold_success provider model b (selectPending store) _ r
      hsel hr hnd htr

/-! ### Helper lemmas: one scan step -/

theorem scanStep_scanned (now : Nat) (store : List ImageRecord) (p : String)
    (out : List ImageRecord) (h : scanStep now store p = some out) :
    ∀ r ∈ out, r.image_path = p → r.scanned_when = now := by
  unfold scanStep at h
  cases hm : parse_image_path_str p with
  | none => simp only [hm] at h; exact Option.noConfusion h
  | some m =>
    simp only [hm] at h
    by_cases hany : store.any (fun r => r.image_path == p) = true
    · rw [if_pos hany] at h
      injection h with h
      subst h
      intro r hr hpath
      obtain ⟨r0, hr0, hfr⟩ := List.mem_map.mp hr
      by_cases hb : (r0.image_path == p) = true
      · rw [if_pos hb] at hfr
        rw [← hfr]
      · rw [if_neg hb] at hfr
        subst hfr
        exact absurd (by simp [hpath]) hb
    · rw [if_neg hany] at h
      injection h with h
      subst h
      intro r hr hpath
      rcases List.mem_append.mp hr with hin | hnew
      · simp only [Bool.not_eq_true, List.any_eq_false] at hany
        have hb := hany r hin
        rw [hpath] at hb
        simp at hb
      · simp only [List.mem_singleton] at hnew
        subst hnew
        rfl

theorem scanStep_mem_of_path_ne (now : Nat) (store : List ImageRecord)
    (p : String) (out : List ImageRecord) (h : scanStep now store p = some out) :
    ∀ r ∈ out, r.image_path ≠ p → r ∈ store := by
  unfold scanStep at h
  cases hm : parse_image_path_str p with
  | none => simp only [hm] at h; exact Option.noConfusion h
  | some m =>
    simp only [hm] at h
    by_cases hany : store.any (fun r => r.image_path == p) = true
    · rw [if_pos hany] at h
      injection h with h
      subst h
      intro r hr hpath
      obtain ⟨r0, hr0, hfr⟩ := List.mem_map.mp hr
      by_cases hb : (r0.image_path == p) = true
      · rw [if_pos hb] at hfr
        rw [← hfr] at hpath
        simp at hb
        exact absurd hb hpath
      · rw [if_neg hb] at hfr
        subst hfr
        exact hr0
    · rw [if_neg hany] at h
      injection h with h
      subst h
      intro r hr hpath
      rcases List.mem_append.mp hr with hin | hnew
      · exact hin
      · simp only [List.mem_singleton] at hnew
        subst hnew
        exact absurd rfl hpath

theorem scanStep_mem_fw_of_path_ne (now : Nat) (store : List ImageRecord)
    (p : String) (out : List ImageRecord) (h : scanStep now store p = some out)
    (r : ImageRecord) (hr : r ∈ store) (hpath : r.image_path ≠ p) : r ∈ out := by
  unfold scanStep at h
  cases hm : parse_image_path_str p with
  | none => simp only [hm] at h; exact Option.noConfusion h
  | some m =>
    simp only [hm] at h
    by_cases hany : store.any (fun r => r.image_path == p) = true
    · rw [if_pos hany] at h
      injection h with h
      subst h
      have hfr : (fun x : ImageRecord =>
          if x.image_path == p then { x with scanned_when := now } else x) r
          = r := by
        simp [hpath]
      rw [← hfr]
      exact List.mem_map_of_mem _ hr
    · rw [if_neg hany] at h
      injection h with h
      subst h
      exact List.mem_append_left _ hr

theorem scanStep_mem_fw_of_path_eq (now : Nat) (store : List ImageRecord)
    (p : String) (out : List ImageRecord) (h : scanStep now store p = some out)
    (r : ImageRecord) (hr : r ∈ store) (hpath : r.image_path = p) :
    { r with scanned_when := now } ∈ out := by
  unfold scanStep at h
  cases hm : parse_image_path_str p with
  | none => simp only [hm] at h; exact Option.noConfusion h
  | some m =>
    simp only [hm] at h
    by_cases hany : store.any (fun r => r.image_path == p) = true
    · rw [if_pos hany] at h
      injection h with h
      subst h
      have hfr : (fun x : ImageRecord =>
          if x.image_path == p then { x with scanned_when := now } else x) r
          = { r with scanned_when := now } := by
        simp [hpath]
      rw [← hfr]
      exact List.mem_map_of_mem _ hr
    · simp only [Bool.not_eq_true, List.any_eq_false] at hany
      have hb := hany r hr
      rw [hpath] at hb
      simp at hb

theorem scanStep_characterization (now : Nat) (store : List ImageRecord)
    (p : String) (out : List ImageRecord) (h : scanStep now store p = some out) :
    ∀ r ∈ out, r ∈ store
      ∨ (∃ r0 ∈ store, r = { r0 with scanned_when := now })
      ∨ (r.created_when = now ∧ r.scanned_when = now) := by
  unfold scanStep at h
  cases hm : parse_image_path_str p with
  | none => simp only [hm] at h; exact Option.noConfusion h
  | some m =>
    simp only [hm] at h
    by_cases hany : store.any (fun r => r.image_path == p) = true
    · rw [if_pos hany] at h
      injection h with h
      subst h
      intro r hr
      obtain ⟨r0, hr0, hfr⟩ := List.mem_map.mp hr
      by_cases hb : (r0.image_path == p) = true
      · rw [if_pos hb] at hfr
        exact Or.inr (Or.inl ⟨r0, hr0, hfr.symm⟩)
      · rw [if_neg hb] at hfr
        subst hfr
        exact Or.inl hr0
    · rw [if_neg hany] at h
      injection h with h
      subst h
      intro r hr
      rcases List.mem_append.mp hr with hin | hnew
      · exact Or.inl hin
      · simp only [List.mem_singleton] at hnew
        subst hnew
        exact Or.inr (Or.inr ⟨rfl, rfl⟩)

theorem scanStep_path_exists (now : Nat) (store : List ImageRecord)
    (p : String) (out : List ImageRecord) (h : scanStep now store p = some out) :
    ∃ r ∈ out, r.image_path = p := by
  unfold scanStep at h
  cases hm : parse_image_path_str p with
  | none => simp only [hm] at h; exact Option.noConfusion h
  | some m =>
    simp only [hm] at h
    by_cases hany : store.any (fun r => r.image_path == p) = true
    · rw [if_pos hany] at h
      injection h with h
      subst h
      obtain ⟨r0, hr0, hb⟩ := List.any_eq_true.mp hany
      refine ⟨{ r0 with scanned_when := now }, ?_, by simpa using hb⟩
      have hfr : (fun x : ImageRecord =>
          if x.image_path == p then { x with scanned_when := now } else x) r0
          = { r0 with scanned_when := now } := by
        simp only [hb, if_true]
      rw [← hfr]
      exact List.mem_map_of_mem _ hr0
    · rw [if_neg hany] at h
      injection h with h
      subst h
      exact ⟨mkScannedRecord (nextId store) m p now,
        List.mem_append_right _ (by simp), rfl⟩

theorem scanStep_parse_ok (now : Nat) (store : List ImageRecord) (p : String)
    (out : List ImageRecord) (h : scanStep now store p = some out) :
    parse_image_path_str p ≠ none := by
  unfold scanStep at h
  cases hm : parse_image_path_str p with
  | none => simp only [hm] at h; exact Option.noConfusion h
  | some m => simp

theorem scanStep_path_preserved (now : Nat) (store : List ImageRecord)
    (p p0 : String) (out : List ImageRecord)
    (h : scanStep now store p = some out)
    (hex : ∃ r ∈ store, r.image_path = p0) : ∃ r ∈ out, r.image_path = p0 := by
  obtain ⟨r, hr, hpath⟩ := hex
  by_cases hp : r.image_path = p
  · refine ⟨{ r with scanned_when := now },
      scanStep_mem_fw_of_path_eq now store p out h r hr hp, ?_⟩
    rw [← hpath]
  · exact ⟨r, scanStep_mem_fw_of_path_ne now store p out h r hr hp, hpath⟩

/-! ### Helper lemmas: a whole scan pass -/

theorem scan_nil (now : Nat) (store : List ImageRecord) :
    scan_and_update_database now [] store = some store := rfl

theorem scan_cons_inv (now : Nat) (p : String) (ps : List String)
    (store out : List ImageRecord)
    (h : scan_and_update_database now (p :: ps) store = some out) :
    ∃ mid, scanStep now store p = some mid ∧
      scan_and_update_database now ps mid = some out := by
  unfold scan_and_update_database at h
  cases hs : scanStep now store p with
  | none => rw [hs] at h; exact Option.noConfusion h
  | some mid =>
    rw [hs] at h
    exact ⟨mid, rfl, h⟩

theorem scan_mem_of_path_notin (now : Nat) (fs : List String) :
    ∀ (store out : List ImageRecord),
      scan_and_update_database now fs store = some out →
      ∀ r ∈ out, r.image_path ∉ fs → r ∈ store := by
  induction fs with
  | nil =>
    intro store out h r hr _
    rw [scan_nil] at h
    injection h with h
    subst h
    exact hr
  | cons p ps ih =>
    intro store out h r hr hnotin
    obtain ⟨mid, hs, hrest⟩ := scan_cons_inv now p ps store out h
    have hmid : r ∈ mid :=
      ih mid out hrest r hr (fun hm => hnotin (by simp [hm]))
    exact scanStep_mem_of_path_ne now store p mid hs r hmid
      (fun he => hnotin (by simp [he]))

theorem scan_mem_fw_of_path_notin (now : Nat) (fs : List String) :
    ∀ (store out : List ImageRecord) (r : ImageRecord), r ∈ store →
      r.image_path ∉ fs →
      scan_and_update_database now fs store = some out → r ∈ out := by
  induction fs with
  | nil =>
    intro store out r hr _ h
    rw [scan_nil] at h
    injection h with h
    subst h
    exact hr
  | cons p ps ih =>
    intro store out r hr hnotin h
    obtain ⟨mid, hs, hrest⟩ := scan_cons_inv now p ps store out h
    have hmid : r ∈ mid :=
      scanStep_mem_fw_of_path_ne now store p mid hs r hr
        (fun he => hnotin (by simp [he]))
    exact ih mid out r hmid (fun hm => hnotin (by simp [hm])) hrest

theorem scan_scanned_eq_now (now : Nat) (fs : List String) :
    ∀ (store out : List ImageRecord),
      scan_and_update_database now fs store = some out →
      ∀ r ∈ out, r.image_path ∈ fs → r.scanned_when = now := by
  induction fs with
  | nil =>
    intro store out _ r _ hmem
    simp at hmem
  | cons p ps ih =>
    intro store out h r hr hmem
    obtain ⟨mid, hs, hrest⟩ := scan_cons_inv now p ps store out h
    by_cases hps : r.image_path ∈ ps
    · exact ih mid out hrest r hr hps
    · have hp : r.image_path = p := by
        rcases List.mem_cons.mp hmem with h1 | h2
        · exact h1
        · exact absurd h2 hps
      have hmid : r ∈ mid := scan_mem_of_path_notin now ps mid out hrest r hr hps
      exact scanStep_scanned now store p mid hs r hmid hp

theorem scan_characterization (now : Nat) (fs : List String) :
    ∀ (store out : List ImageRecord),
      scan_and_update_database now fs store = some out →
      ∀ r ∈ out, r ∈ store
        ∨ (∃ r0 ∈ store, r = { r0 with scanned_when := now })
        ∨ (r.created_when = now ∧ r.scanned_when = now) := by
  induction fs with
  | nil =>
    intro store out h r hr
    rw [scan_nil] at h
    injection h with h
    subst h
    exact Or.inl hr
  | cons p ps ih =>
    intro store out h r hr
    obtain ⟨mid, hs, hrest⟩ := scan_cons_inv now p ps store out h
    rcases ih mid out hrest r hr with hmid | ⟨m0, hm0, heq⟩ | hst
    · exact scanStep_characterization now store p mid hs r hmid
    · rcases scanStep_characterization now store p mid hs m0 hm0 with
        hm0s | ⟨r0, hr0, heq0⟩ | hm0st
      · exact Or.inr (Or.inl ⟨m0, hm0s, heq⟩)
      · refine Or.inr (Or.inl ⟨r0, hr0, ?_⟩)
        rw [heq, heq0]
      · refine Or.inr (Or.inr ?_)
        rw [heq]
        exact ⟨hm0st.1, rfl⟩
    · exact Or.inr (Or.inr hst)

theorem scan_path_preserved (now : Nat) (fs : List String) :
    ∀ (store out : List ImageRecord) (p0 : String),
      (∃ r ∈ store, r.image_path = p0) →
      scan_and_update_database now fs store = some out →
      ∃ r ∈ out, r.image_path = p0 := by
  induction fs with
  | nil =>
    intro store out p0 hex h
    rw [scan_nil] at h
    injection h with h
    subst h
    exact hex
  | cons p ps ih =>
    intro store out p0 hex h
    obtain ⟨mid, hs, hrest⟩ := scan_cons_inv now p ps store out h
    exact ih mid out p0 (scanStep_path_preserved now store p p0 mid hs hex) hrest

theorem scan_path_exists (now : Nat) (fs : List String) :
    ∀ (store out : List ImageRecord),
      scan_and_update_database now fs store = some out →
      ∀ p ∈ fs, ∃ r ∈ out, r.image_path = p := by
  induction fs with
  | nil =>
    intro store out _ p hp
    simp at hp
  | cons q ps ih =>
    intro store out h p hp
    obtain ⟨mid, hs, hrest⟩ := scan_cons_inv now q ps store out h
    rcases List.mem_cons.mp hp with h1 | h2
    · subst h1
      exact scan_path_preserved now ps mid out p
        (scanStep_path_exists now store p mid hs) hrest
    · exact ih mid out hrest p h2

theorem scan_parse_ok (now : Nat) (fs : List String) :
    ∀ (store out : List ImageRecord),
      scan_and_update_database now fs store = some out →
      ∀ p ∈ fs, parse_image_path_str p ≠ none := by
  induction fs with
  | nil =>
    intro store out _ p hp
    simp at hp
  | cons q ps ih =>
    intro store out h p hp
    obtain ⟨mid, hs, hrest⟩ := scan_cons_inv now q ps store out h
    rcases List.mem_cons.mp hp with h1 | h2
    · subst h1
      exact scanStep_parse_ok now store p mid hs
    · exact ih mid out hrest p h2

theorem eraseScanned_map_update (now : Nat) (p : String)
    (store : List ImageRecord) :
    (store.map (fun r =>
        if r.image_path == p then { r with scanned_when := now } else r)).map
      eraseScanned = store.map eraseScanned := by
  rw [List.map_map]
  apply List.map_congr_left
  intro r _
  by_cases hb : r.image_path = p
  · simp [Function.comp, hb, eraseScanned]
  · simp [Function.comp, hb, eraseScanned]

theorem scan_all_update (now2 : Nat) (fs : List String) :
    ∀ store : List ImageRecord,
      (∀ p ∈ fs, ∃ r ∈ store, r.image_path = p) →
      (∀ p ∈ fs, parse_image_path_str p ≠ none) →
      ∃ out2, scan_and_update_database now2 fs store = some out2
        ∧ out2.map eraseScanned = store.map eraseScanned
        ∧ out2.length = store.length := by
  induction fs with
  | nil =>
    intro store _ _
    exact ⟨store, rfl, rfl, rfl⟩
  | cons p ps ih =>
    intro store hpres hparse
    obtain ⟨m, hm⟩ := Option.ne_none_iff_exists'.mp (hparse p (by simp))
    have hany : (store.any fun r => r.image_path == p) = true := by
      obtain ⟨r, hr, hpath⟩ := hpres p (by simp)
      exact List.any_eq_true.mpr ⟨r, hr, by simp [hpath]⟩
    have hstep : scanStep now2 store p =
        some (store.map (fun r =>
          if r.image_path == p then { r with scanned_when := now2 } else r)) := by
      unfold scanStep
      simp only [hm]
      rw [if_pos hany]
    set mid := store.map (fun r =>
      if r.image_path == p then { r with scanned_when := now2 } else r) with hmid
    have hpres2 : ∀ q ∈ ps, ∃ r ∈ mid, r.image_path = q := by
      intro q hq
      obtain ⟨r, hr, hpath⟩ := hpres q (by simp [hq])
      by_cases hb : r.image_path = p
      · refine ⟨{ r with scanned_when := now2 }, ?_, hpath⟩
        rw [hmid]
        have hfr : (fun x : ImageRecord =>
            if x.image_path == p then { x with scanned_when := now2 } else x) r
            = { r with scanned_when := now2 } := by
          simp [hb]
        rw [← hfr]
        exact List.mem_map_of_mem _ hr
      · refine ⟨r, ?_, hpath⟩
        rw [hmid]
        have hfr : (fun x : ImageRecord =>
            if x.image_path == p then { x with scanned_when := now2 } else x) r
            = r := by
          simp [hb]
        rw [← hfr]
        exact List.mem_map_of_mem _ hr
    obtain ⟨out2, hsc, herase, hlen⟩ :=
      ih mid hpres2 (fun q hq => hparse q (by simp [hq]))
    refine ⟨out2, ?_, ?_, ?_⟩
    · unfold scan_and_update_database
      rw [hstep]
      exact hsc
    · rw [herase, hmid]
      exact eraseScanned_map_update now2 p store
    · rw [hlen, hmid, List.length_map]

theorem scan_refreshes (now : Nat) (fs : List String) :
    ∀ (store out : List ImageRecord) (r : ImageRecord), r ∈ store →
      scan_and_update_database now fs store = some out →
      (r.image_path ∈ fs → { r with scanned_when := now } ∈ out)
      ∧ (r.image_path ∉ fs → r ∈ out) := by
  induction fs with
  | nil =>
    intro store out r hr h
    rw [scan_nil] at h
    injection h with h
    subst h
    exact ⟨fun hmem => absurd hmem (by simp), fun _ => hr⟩
  | cons p ps ih =>
    intro store out r hr h
    obtain ⟨mid, hs, hrest⟩ := scan_cons_inv now p ps store out h
    constructor
    · intro hmem
      by_cases hp : r.image_path = p
      · have hmid : { r with scanned_when := now } ∈ mid :=
          scanStep_mem_fw_of_path_eq now store p mid hs r hr hp
        by_cases hps : r.image_path ∈ ps
        · have := (ih mid out { r with scanned_when := now } hmid hrest).1 hps
          simpa using this
        · exact (ih mid out { r with scanned_when := now } hmid hrest).2 hps
      · have hps : r.image_path ∈ ps := by
          rcases List.mem_cons.mp hmem with h1 | h2
          · exact absurd h1 hp
          · exact h2
        have hmid : r ∈ mid :=
          scanStep_mem_fw_of_path_ne now store p mid hs r hr hp
        exact (ih mid out r hmid hrest).1 hps
    · intro hnotin
      have hmid : r ∈ mid :=
        scanStep_mem_fw_of_path_ne now store p mid hs r hr
          (fun he => hnotin (by simp [he]))
      exact (ih mid out r hmid hrest).2 (fun hm => hnotin (by simp [hm]))

/-- C5: a scan pass rewrites only `scanned_when` for paths it sees and
leaves other records alone; rescanning an unchanged tree therefore
succeeds, inserts nothing, changes no field but `scanned_when`, and stamps
the rescanned rows with the new pass time. -/
theorem scan_idempotent (now1 now2 : Nat) (files : List String)
    (store out1 : List ImageRecord)
    (h1 : scan_and_update_database now1 files store = some out1) :
    (∀ r ∈ store,
        (r.image_path ∈ files → { r with scanned_when := now1 } ∈ out1)
        ∧ (r.image_path ∉ files → r ∈ out1))
    ∧ ∃ out2, scan_and_update_database now2 files out1 = some out2
        ∧ out2.map eraseScanned = out1.map eraseScanned
        ∧ out2.length = out1.length
        ∧ (∀ r ∈ out2, r.image_path ∈ files → r.scanned_when = now2) := by
  constructor
  · intro r hr
    exact scan_refreshes now1 files store out1 r hr h1
  · obtain ⟨out2, hsc2, herase, hlen⟩ :=
      scan_all_update now2 files out1
        (scan_path_exists now1 files store out1 h1)
        (scan_parse_ok now1 files store out1 h1)
    exact ⟨out2, hsc2, herase, hlen,
      scan_scanned_eq_now now2 files out1 out2 hsc2⟩

/-- C9: one scan pass stamps every path it sees with the single timestamp
captured at the start of the pass, and every row it inserts has
`created_when = scanned_when` equal to that timestamp. -/
theorem scan_single_timestamp (now : Nat) (files : List String)
    (store out : List ImageRecord)
    (h : scan_and_update_database now files store = some out) :
    (∀ r ∈ out, r.image_path ∈ files → r.scanned_when = now)
    ∧ (∀ r ∈ out, r.id ∉ store.map (fun x => x.id) →
        r.created_when = now ∧ r.scanned_when = now) := by
  refine ⟨scan_scanned_eq_now now files store out h, ?_⟩
  intro r hr hid
  rcases scan_characterization now files store out h r hr with
    hmem | ⟨r0, hr0, heq⟩ | hst
  · exact absurd (List.mem_map_of_mem _ hmem) hid
  · have hrid : r.id = r0.id := by rw [heq]
    refine absurd ?_ hid
    rw [hrid]
    exact List.mem_map_of_mem _ hr0
  · exact hst

/-! ### Concrete fixtures for witness checks -/

/-- A concrete pending record. -/
def sampleRecord : ImageRecord :=
  { id := 1
    collection := "a"
    type := "b"
    file := "c"
    filename := "c.png"
    image_path := "a/b/c.png"
    model := none
    text := none
    skipped := false
    created_when := 0
    scanned_when := 0
    updated_when := none }

/-- A second concrete pending record with a larger id. -/
def sampleRecord2 : ImageRecord :=
  { id := 2
    collection := "d"
    type := "e"
    file := "f"
    filename := "f.png"
    image_path := "d/e/f.png"
    model := none
    text := none
    skipped := false
    created_when := 0
    scanned_when := 0
    updated_when := none }

/-- A provider that always succeeds. -/
def sampleProvider : String → Option String :=
  fun _ => some ("cap")

/-- A provider that fails exactly on `sampleRecord`. -/
def sampleProviderFail : String → Option String :=
  fun p => if p = "a/b/c.png" then none else some ("cap")

/-- A concrete run state holding `sampleRecord`. -/
def sampleState : RunState :=
  { store := [sampleRecord]
    count := { image_path := none, updated_when := none }
    processedCount := 0
    clock := 5
    log := [] }

/-- The two concrete records, listed out of id order. -/
def sampleStoreRev : List ImageRecord :=
  [sampleRecord2, sampleRecord]

/-- The store produced by scanning `a/b/c.png` into an empty table at
time 1. -/
def sampleScanOut : List ImageRecord :=
  [{ id := 1
     collection := "a"
     type := "b"
     file := "c"
     filename := "c.png"
     image_path := "a/b/c.png"
     model := none
     text := none
     skipped := false
     created_when := 1
     scanned_when := 1
     updated_when := none }]

/-- Witness for the C2 theorem at a concrete state and provider. -/
theorem caption_committed_before_cursor_witness :
    sampleProvider ("a/b/c.png") = some ("cap")
    ∧ ("cap" : String) ≠ ""
    ∧ (((annotateStep sampleProvider ("m") 10 sampleState 1
          ("a/b/c.png")).store
        = commitCaption ("m") ("cap") sampleState.clock sampleState.store 1)
      ∧ ((annotateStep sampleProvider ("m") 10 sampleState 1
            ("a/b/c.png")).count
        = save_last_processed ("a/b/c.png") (sampleState.clock + 1))
      ∧ (∀ q ∈ selectPending (commitCaption ("m") ("cap") sampleState.clock
            sampleState.store 1), q.id ≠ 1)) :=
  ⟨rfl, by decide,
    caption_committed_before_cursor sampleProvider ("m") 10 sampleState 1
      ("a/b/c.png") ("cap") rfl (by decide)⟩

/-- Witness for the C3 theorem: a store with a failing and a succeeding
record. -/
theorem failure_isolation_witness :
    ((sampleStoreRev.map (fun r => r.id)).Nodup)
    ∧ sampleRecord ∈ sampleStoreRev
    ∧ ((truthy (sampleProviderFail sampleRecord.image_path) = false →
          sampleRecord ∈ (process_unprocessed_records sampleProviderFail
              ("m") 10 sampleStoreRev
              { image_path := none, updated_when := none } 0).store
          ∧ (sampleRecord.updated_when = none → sampleRecord.skipped = false →
              LogEntry.skippedError sampleRecord.id
                ∈ (process_unprocessed_records sampleProviderFail ("m") 10
                    sampleStoreRev
                    { image_path := none, updated_when := none } 0).log))
      ∧ (truthy (sampleProviderFail sampleRecord.image_path) = true →
          sampleRecord.updated_when = none → sampleRecord.skipped = false →
          ∃ t txt, sampleProviderFail sampleRecord.image_path = some txt
            ∧ txt ≠ ""
            ∧ { sampleRecord with
                  model := some ("m")
                  text := some txt
                  updated_when := some t }
              ∈ (process_unprocessed_records sampleProviderFail ("m") 10
                  sampleStoreRev
                  { image_path := none, updated_when := none } 0).store)) :=
  ⟨by decide, by decide,
    failure_isolation sampleProviderFail ("m") 10 sampleStoreRev
      { image_path := none, updated_when := none } 0 (by decide)
      sampleRecord (by decide)⟩

/-- Witness for the C4 theorem on a store listed out of id order. -/
theorem work_order_determinism_witness :
    ((sampleStoreRev.map (fun r => r.id)).Nodup)
    ∧ List.Perm sampleStoreRev sampleStoreRev
    ∧ (List.Pairwise (fun a b : ImageRecord => a.id < b.id)
        (selectPending sampleStoreRev)
      ∧ selectPending sampleStoreRev = selectPending sampleStoreRev
      ∧ processedIdsOf
          (process_unprocessed_records sampleProvider ("m") 10 sampleStoreRev
            { image_path := none, updated_when := none } 0).log
        = (selectPending sampleStoreRev).map (fun r => r.id)) :=
  ⟨by decide, List.Perm.refl _,
    work_order_determinism sampleProvider ("m") 10 sampleStoreRev
      sampleStoreRev { image_path := none, updated_when := none } 0
      (by decide) (List.Perm.refl _)⟩

/-- Witness for the C5 theorem: scanning one path into an empty store,
then rescanning. -/
theorem scan_idempotent_witness :
    scan_and_update_database 1 [("a/b/c.png")] [] = some sampleScanOut
    ∧ ((∀ r ∈ ([] : List ImageRecord),
          (r.image_path ∈ [("a/b/c.png")] →
            { r with scanned_when := 1 } ∈ sampleScanOut)
          ∧ (r.image_path ∉ [("a/b/c.png")] → r ∈ sampleScanOut))
      ∧ ∃ out2, scan_and_update_database 2 [("a/b/c.png")] sampleScanOut
            = some out2
          ∧ out2.map eraseScanned = sampleScanOut.map eraseScanned
          ∧ out2.length = sampleScanOut.length
          ∧ (∀ r ∈ out2, r.image_path ∈ [("a/b/c.png")] →
              r.scanned_when = 2)) :=
  ⟨by decide,
    scan_idempotent 1 2 [("a/b/c.png")] [] sampleScanOut (by decide)⟩

/-- Witness for the C6 theorem on a concrete three-segment path. -/
theorem parse_image_path_spec_witness :
    3 ≤ (pySplit '/' (String.toList ("a/b/c.png"))).length
    ∧ (∃ m, parse_image_path (String.toList ("a/b/c.png")) = some m
        ∧ (∃ pre, pySplit '/' (String.toList ("a/b/c.png"))
            = pre ++ [m.collection, m.type, m.filename])
        ∧ m.file = pyRsplitHead '.' m.filename
        ∧ ('.' ∉ m.filename → m.file = m.filename)
        ∧ ('.' ∈ m.filename →
            ∃ ext, '.' ∉ ext ∧ m.filename = m.file ++ '.' :: ext)) :=
  ⟨by decide,
    (parse_image_path_spec (String.toList ("a/b/c.png"))).1 (by decide)⟩

/-- A concrete `os.walk` result for witness checks. -/
def sampleWalk : List FsFile :=
  [{ root := "r", name := "y.txt" }, { root := "r", name := "x.PNG" }]

/-- Witness for the C7 theorem on a concrete walk. -/
theorem scanner_file_enumeration_witness :
    List.Perm sampleWalk sampleWalk
    ∧ ((∀ p, p ∈ get_image_files sampleWalk ↔
          ∃ f, f ∈ sampleWalk ∧ hasImageExtension f.name = true
            ∧ p = joinPath f.root f.name)
      ∧ List.Pairwise (fun a b : String => a ≤ b)
          (get_image_files sampleWalk)
      ∧ get_image_files sampleWalk = get_image_files sampleWalk) :=
  ⟨List.Perm.refl _,
    scanner_file_enumeration sampleWalk sampleWalk (List.Perm.refl _)⟩

/-- Witness for the C9 theorem on the same concrete scan. -/
theorem scan_single_timestamp_witness :
    scan_and_update_database 1 [("a/b/c.png")] [] = some sampleScanOut
    ∧ ((∀ r ∈ sampleScanOut, r.image_path ∈ [("a/b/c.png")] →
          r.scanned_when = 1)
      ∧ (∀ r ∈ sampleScanOut,
          r.id ∉ ([] : List ImageRecord).map (fun x => x.id) →
          r.created_when = 1 ∧ r.scanned_when = 1)) :=
  ⟨by decide,
    scan_single_timestamp 1 [("a/b/c.png")] [] sampleScanOut (by decide)⟩

/-- A concrete pre-populated database. -/
def sampleDB : DBState :=
  { imagesTableExists := true
    images := [sampleRecord]
    countTableExists := true
    countRow := some { image_path := some ("q"), updated_when := some 3 } }

/-- Witness for the C10 theorem on a pre-populated database. -/
theorem init_database_preserves_existing_witness :
    sampleDB.imagesTableExists = true
    ∧ sampleDB.countTableExists = true
    ∧ sampleDB.countRow
        = some { image_path := some ("q"), updated_when := some 3 }
    ∧ ((init_database sampleDB).images = sampleDB.images
      ∧ (init_database sampleDB).countRow
          = some { image_path := some ("q"), updated_when := some 3 }) :=
  ⟨rfl, rfl, rfl,
    init_database_preserves_existing sampleDB
      { image_path := some ("q"), updated_when := some 3 } rfl rfl rfl⟩
